import Mathlib

set_option maxRecDepth 40000

/-!
Verification of the TTS worker's coordination layer
(`src/audio-agent/workers/tts/tts_worker/app.py`).

Text is modelled as `List Char`.  Python regular-expression substitutions are
embedded by their operational semantics on the concrete patterns appearing in
the source (leftmost, non-overlapping, greedy matching).  Python/NumPy float
arithmetic is modelled by exact rationals: the properties checked here
(clamping, truncation versus rounding, sample-count arithmetic) are exact at
the inputs considered.  ASCII whitespace stands for Python's whitespace class.
-/

namespace TtsWorker

/-- ASCII whitespace, modelling Python's whitespace class used by `str.strip`
and the regex class `\s` (space, tab, newline, carriage return, vertical tab,
form feed). -/
def isWs (c : Char) : Bool :=
  c == ' ' || c == '\t' || c == '\n' || c == '\r' || c == Char.ofNat 11 || c == Char.ofNat 12

/-- Sentence-ending punctuation of the lookbehind in `re.split(r"(?<=[.!?])\s+", ...)`
(app.py line 97). -/
def isPunctEnd (c : Char) : Bool := c == '.' || c == '!' || c == '?'

/-- Python `str.strip()` acting on the right end only. -/
def stripRight (s : List Char) : List Char := (s.reverse.dropWhile isWs).reverse

/-- Python `str.strip()`: remove whitespace from both ends. -/
def stripText (s : List Char) : List Char := stripRight (s.dropWhile isWs)

/-- Length of the leading run of `'*'` characters. -/
def starCount : List Char → Nat
  | [] => 0
  | c :: rest => if c = '*' then starCount rest + 1 else 0

/-- Matching of `\*{1,3}([^*]+)\*{1,3}` at the head of `s`
(the first substitution of `_sanitize_tts_text`, app.py line 84).
With Python's greedy backtracking, a match at the head exists iff the leading
star run has length 1..3, a nonempty star-free group follows, and at least one
star follows the group; the closing quantifier then takes `min 3` of the
following star run.  Returns the captured group (the replacement) and the
remainder of the string after the whole match. -/
def starMatchAt (s : List Char) : Option (List Char × List Char) :=
  let r := starCount s
  if r = 0 ∨ 4 ≤ r then none
  else
    let afterStars := s.drop r
    let g := afterStars.takeWhile (fun c => !(c == '*'))
    if g = [] then none
    else
      let afterG := afterStars.drop g.length
      let r2 := starCount afterG
      if r2 = 0 then none
      else some (g, afterG.drop (min 3 r2))

/-- Scan of `re.sub(r"\*{1,3}([^*]+)\*{1,3}", r"\1", s)`: at each position try
to match; on a match emit the group and continue after the match, otherwise
emit one character and advance.  Fuel-driven structural recursion; every step
consumes at least one character, so `fuel = s.length` computes the full scan. -/
def stripStarsFuel : Nat → List Char → List Char
  | 0, s => s
  | _ + 1, [] => []
  | fuel + 1, c :: rest =>
    match starMatchAt (c :: rest) with
    | some (g, remainder) => g ++ stripStarsFuel fuel remainder
    | none => c :: stripStarsFuel fuel rest

/-- `re.sub(r"\*{1,3}([^*]+)\*{1,3}", r"\1", s)` (app.py line 84). -/
def stripStars (s : List Char) : List Char := stripStarsFuel s.length s

/-- The characters removed by `re.sub(r"[`_~]", "", s)` (app.py line 85);
`Char.ofNat 96` is the backquote. -/
def isHostile (c : Char) : Bool := c == Char.ofNat 96 || c == '_' || c == '~'

/-- `re.sub(r"[`_~]", "", s)` (app.py line 85). -/
def removeHostile (s : List Char) : List Char := s.filter (fun c => !isHostile c)

/-- `re.sub(r"\s*\n+\s*", " ", s)` (app.py line 86): each maximal whitespace
run containing a newline collapses to a single space; whitespace runs without
a newline are left unchanged.  Fuel-driven; every step consumes at least one
character. -/
def collapseNlFuel : Nat → List Char → List Char
  | 0, s => s
  | _ + 1, [] => []
  | fuel + 1, c :: rest =>
    if isWs c then
      let run := (c :: rest).takeWhile isWs
      let tail := (c :: rest).dropWhile isWs
      if run.contains '\n' then ' ' :: collapseNlFuel fuel tail
      else run ++ collapseNlFuel fuel tail
    else c :: collapseNlFuel fuel rest

/-- `re.sub(r"\s*\n+\s*", " ", s)` (app.py line 86). -/
def collapseNl (s : List Char) : List Char := collapseNlFuel s.length s

/-- State machine for `re.sub(r"\s+", " ", s)`: the flag records whether the
previous character was whitespace (i.e. we are inside a run already replaced
by a space). -/
def collapseWsAux : Bool → List Char → List Char
  | _, [] => []
  | prevWs, c :: rest =>
    if isWs c then
      if prevWs then collapseWsAux true rest else ' ' :: collapseWsAux true rest
    else c :: collapseWsAux false rest

/-- `re.sub(r"\s+", " ", s)` (app.py line 87). -/
def collapseWs (s : List Char) : List Char := collapseWsAux false s

/-- `_sanitize_tts_text` (app.py lines 81-88): strip emphasis stars, remove
backquote/underscore/tilde, collapse newline runs, collapse whitespace runs,
strip the ends. -/
def sanitize_tts_text (t : List Char) : List Char :=
  stripText (collapseWs (collapseNl (removeHostile (stripStars t))))

/-- Lookbehind test on the previous character, `False` at the start of the
string. -/
def punctOpt : Option Char → Bool
  | some p => isPunctEnd p
  | none => false

/-- State machine for `re.split(r"(?<=[.!?])\s+", s)` (app.py line 97).
In normal mode (`skip = false`) a whitespace character preceded by `.`, `!` or
`?` starts a separator: the accumulated sentence is emitted and the machine
enters skip mode, which consumes the rest of the whitespace run (`\s+` is
greedy) before starting the next sentence. -/
def splitSentAux : Bool → Option Char → List Char → List Char → List (List Char)
  | _, _, acc, [] => [acc.reverse]
  | true, _, acc, c :: rest =>
    if isWs c then splitSentAux true (some c) acc rest
    else splitSentAux false (some c) (c :: acc) rest
  | false, prev, acc, c :: rest =>
    if isWs c && punctOpt prev then acc.reverse :: splitSentAux true (some c) [] rest
    else splitSentAux false (some c) (c :: acc) rest

/-- `re.split(r"(?<=[.!?])\s+", s)` (app.py line 97). -/
def splitSentences (s : List Char) : List (List Char) := splitSentAux false none [] s

/-- Python `" ".join(...)`. -/
def joinSpace : List (List Char) → List Char
  | [] => []
  | [c] => c
  | c :: cs => c ++ ' ' :: joinSpace cs

/-- The hard-split loop for an over-long sentence (app.py lines 106-109):
`for i in range(0, len(sentence), max_chars)` takes consecutive `max_chars`
slices, strips each, and keeps the nonempty ones.  Fuel-driven; for
`0 < m` every step consumes at least one character. -/
def hardSplitFuel (m : Nat) : Nat → List Char → List (List Char)
  | 0, _ => []
  | _ + 1, [] => []
  | fuel + 1, c :: rest =>
    let part := stripText ((c :: rest).take m)
    if part = [] then hardSplitFuel m fuel ((c :: rest).drop m)
    else part :: hardSplitFuel m fuel ((c :: rest).drop m)

/-- All stripped nonempty `max_chars` slices of `s` (app.py lines 106-109). -/
def hardSplitParts (m : Nat) (s : List Char) : List (List Char) :=
  hardSplitFuel m s.length s

/-- The raw (pre-strip) consecutive `max_chars` slices `sentence[i:i+max_chars]`
of app.py line 107, before `strip()` and the nonemptiness filter are applied. -/
def rawSlicesFuel (m : Nat) : Nat → List Char → List (List Char)
  | 0, _ => []
  | _ + 1, [] => []
  | fuel + 1, c :: rest => (c :: rest).take m :: rawSlicesFuel m fuel ((c :: rest).drop m)

/-- The raw `max_chars` slices of a sentence (app.py line 107). -/
def rawSlices (m : Nat) (s : List Char) : List (List Char) := rawSlicesFuel m s.length s

/-- The sentence-packing loop of `_split_text_for_tts` (app.py lines 101-124),
with `current` the running chunk.  Empty sentences are skipped; a sentence
longer than `max_chars` is hard-split (discarding `current`, as the source
does); otherwise sentences are packed greedily with a joining space while
`len(current) + 1 + len(sentence) <= max_chars`. -/
def buildChunks (m : Nat) : List (List Char) → List Char → List (List Char)
  | [], current => if current = [] then [] else [current]
  | s :: rest, current =>
    if s = [] then buildChunks m rest current
    else if m < s.length then hardSplitParts m s ++ buildChunks m rest []
    else if current = [] then buildChunks m rest s
    else if current.length + 1 + s.length ≤ m then buildChunks m rest (current ++ ' ' :: s)
    else current :: buildChunks m rest s

/-- `_split_text_for_tts` (app.py lines 91-126): sanitize; return the whole
text as one chunk when it fits, otherwise split into sentences and pack. -/
def split_text_for_tts (t : List Char) (m : Nat) : List (List Char) :=
  if (sanitize_tts_text t).length ≤ m then [sanitize_tts_text t]
  else buildChunks m (splitSentences (sanitize_tts_text t)) []

/-- `MAX_TEXT_LENGTH` (app.py line 34). -/
def MAX_TEXT_LENGTH : Nat := 4000

/-- `MAX_TTS_CHUNK_CHARS` (app.py line 35). -/
def MAX_TTS_CHUNK_CHARS : Nat := 500

/-- The example text of the spec: `"Hello world. " * 50`. -/
def helloText : List Char := (List.replicate 50 ("Hello world. ".toList)).flatten

/-- Two adjacent characters are not both whitespace. -/
def wsFree (a b : Char) : Prop := ¬(isWs a = true ∧ isWs b = true)

/-- No two adjacent whitespace characters anywhere in the string. -/
def noTwoWs (s : List Char) : Prop := List.Chain' wsFree s

/-- `np.clip(x, -1.0, 1.0)` on one sample (app.py line 76). -/
def clip_sample (x : ℚ) : ℚ := max (-1) (min 1 x)

/-- Conversion to integer by truncation toward zero, the semantics of NumPy's
`astype(np.int16)` on a float within the int16 range. -/
def truncQ (q : ℚ) : ℤ := if 0 ≤ q then ⌊q⌋ else ⌈q⌉

/-- The per-sample quantization of `_decode_wav_to_pcm16` (app.py lines 76-77):
`np.clip` to `[-1, 1]`, multiply by 32767, convert with `astype(np.int16)`. -/
def pcm16_of_sample (x : ℚ) : ℤ := truncQ (clip_sample x * 32767)

/-- `TARGET_SAMPLE_RATE` (app.py line 32). -/
def TARGET_SAMPLE_RATE : Nat := 24000

/-- The resampling stage of `_decode_wav_to_pcm16` (app.py lines 71-74):
resample only when `sr != TARGET_SAMPLE_RATE`; the output sample count is
`int(len(audio) * TARGET_SAMPLE_RATE / sr)`, i.e. the floor of the exact
ratio.  Returns the (sample count, sample rate) after the stage. -/
def resample_stage (n sr : Nat) : Nat × Nat :=
  if sr = TARGET_SAMPLE_RATE then (n, sr) else (n * TARGET_SAMPLE_RATE / sr, TARGET_SAMPLE_RATE)

/-- Observable events of one run of the `tts` endpoint body (app.py lines
134-167), in program order. -/
inductive TtsEvent
  | rejected (status : Nat)
  | gateEnter
  | sanitizeText
  | synthesize
  | gateExit
  | respond
deriving DecidableEq

/-- Control-flow skeleton of the `tts` endpoint (app.py lines 134-167):
strip the request text; empty text is rejected with HTTP 400; text longer
than `MAX_TEXT_LENGTH` is rejected with HTTP 413; otherwise the handler enters
the semaphore gate, sanitizes, synthesizes, leaves the gate and responds. -/
def tts_handler (reqText : List Char) : List TtsEvent :=
  if stripText reqText = [] then [.rejected 400]
  else if MAX_TEXT_LENGTH < (stripText reqText).length then [.rejected 413]
  else [.gateEnter, .sanitizeText, .synthesize, .gateExit, .respond]

/-- Counting-semaphore state for `_SYNTH_SEMAPHORE = asyncio.Semaphore(1)`
(app.py line 30): numbers of requests waiting before the gate, running inside
the `async with` block, and finished, plus the semaphore's available permits. -/
structure GateState where
  waiting : Nat
  running : Nat
  finished : Nat
  avail : Nat
deriving DecidableEq

/-- Initial state: no requests yet, one permit (`asyncio.Semaphore(1)`). -/
def gateInit : GateState := ⟨0, 0, 0, 1⟩

/-- Interleaving semantics of the gate: a new request may arrive at any time
(`submit`); a waiting request may enter the `async with` block only by taking
a permit (`acquire`); a running request leaving the block returns its permit
(`release`).  This models `async with _SYNTH_SEMAPHORE` around the synthesis
body (app.py lines 143-167). -/
inductive GateStep : GateState → GateState → Prop
  | submit (s : GateState) :
      GateStep s ⟨s.waiting + 1, s.running, s.finished, s.avail⟩
  | acquire (s : GateState) : 0 < s.waiting → 0 < s.avail →
      GateStep s ⟨s.waiting - 1, s.running + 1, s.finished, s.avail - 1⟩
  | release (s : GateState) : 0 < s.running →
      GateStep s ⟨s.waiting, s.running - 1, s.finished + 1, s.avail + 1⟩

/-- States reachable from the initial gate state by any interleaving. -/
inductive GateReachable : GateState → Prop
  | init : GateReachable gateInit
  | step {s t : GateState} : GateReachable s → GateStep s t → GateReachable t

/-! ## Basic facts about the synthesis gate -/

/-- Inductive invariant of the gate: the number of requests inside the
`async with` block plus the available permits is always the initial permit
count, 1. -/
theorem gate_running_add_avail (s : GateState) (h : GateReachable s) :
    s.running + s.avail = 1 := by
  induction h with
  | init => rfl
  | step hr hstep ih =>
    cases hstep <;> dsimp only <;> omega

/-! ## Claim theorems -/

/-- C9: with the semaphore initialized to one permit, no reachable state of
the gate has two synthesis bodies running concurrently: in every reachable
state at most one request is inside the `async with _SYNTH_SEMAPHORE` block,
for any number of concurrently submitted requests. -/
theorem C9_gate_exclusivity (s : GateState) (h : GateReachable s) : s.running ≤ 1 := by
  have hinv := gate_running_add_avail s h
  omega

/-- Witness for C9: the state with one waiting and one running request,
reached by two submissions and one acquisition, has at most one running
synthesis body. -/
theorem C9_gate_exclusivity_witness :
    GateReachable ⟨1, 1, 0, 0⟩ ∧ (⟨1, 1, 0, 0⟩ : GateState).running ≤ 1 := by
  have h1 : GateReachable ⟨1, 0, 0, 1⟩ :=
    GateReachable.step GateReachable.init (GateStep.submit gateInit)
  have h2 : GateReachable ⟨2, 0, 0, 1⟩ :=
    GateReachable.step h1 (GateStep.submit ⟨1, 0, 0, 1⟩)
  have h3 : GateReachable ⟨1, 1, 0, 0⟩ :=
    GateReachable.step h2 (GateStep.acquire ⟨2, 0, 0, 1⟩ (by decide) (by decide))
  exact ⟨h3, C9_gate_exclusivity _ h3⟩

/-- C8: a request whose stripped text is longer than `MAX_TEXT_LENGTH = 4000`
is rejected with the size-limit error (HTTP 413) before the synthesis gate is
entered and before any synthesis work starts, and a request whose stripped
text is within the bound is never rejected with the size-limit error. -/
theorem C8_size_limit_rejection (reqText : List Char) :
    (MAX_TEXT_LENGTH < (stripText reqText).length →
      tts_handler reqText = [TtsEvent.rejected 413] ∧
      TtsEvent.gateEnter ∉ tts_handler reqText ∧
      TtsEvent.synthesize ∉ tts_handler reqText) ∧
    ((stripText reqText).length ≤ MAX_TEXT_LENGTH →
      TtsEvent.rejected 413 ∉ tts_handler reqText) := by
  by_cases h1 : stripText reqText = []
  · constructor
    · intro hlen
      rw [h1] at hlen
      simp [MAX_TEXT_LENGTH] at hlen
    · intro _
      simp [tts_handler, h1]
  · by_cases h2 : MAX_TEXT_LENGTH < (stripText reqText).length
    · constructor
      · intro _
        simp [tts_handler, h1, h2]
      · intro hle
        omega
    · constructor
      · intro hlen
        exact absurd hlen h2
      · intro _
        simp [tts_handler, h1, h2]

/-- Stripping a replicated non-whitespace letter changes nothing. -/
theorem stripText_replicate_a (n : Nat) :
    stripText (List.replicate n 'a') = List.replicate n 'a' := by
  have hdw : ∀ m : Nat, List.dropWhile isWs (List.replicate m 'a') = List.replicate m 'a' := by
    intro m
    cases m with
    | zero => rfl
    | succ k =>
      have hws : isWs 'a' = false := by decide
      rw [List.replicate_succ, List.dropWhile_cons, hws]
      simp
  unfold stripText stripRight
  rw [hdw, List.reverse_replicate, hdw, List.reverse_replicate]

/-- Witness for C8: a 4001-character request is rejected with HTTP 413 and
never reaches the gate; a 1-character request is not size-rejected. -/
theorem C8_size_limit_rejection_witness :
    (tts_handler (List.replicate 4001 'a') = [TtsEvent.rejected 413] ∧
      TtsEvent.gateEnter ∉ tts_handler (List.replicate 4001 'a') ∧
      TtsEvent.synthesize ∉ tts_handler (List.replicate 4001 'a')) ∧
    TtsEvent.rejected 413 ∉ tts_handler ['h'] :=
  ⟨(C8_size_limit_rejection (List.replicate 4001 'a')).1
      (by rw [stripText_replicate_a, List.length_replicate]; norm_num [MAX_TEXT_LENGTH]),
   (C8_size_limit_rejection ['h']).2 (by decide)⟩

/-- C10: a request whose text strips to the empty string is rejected with
HTTP 400, with no sanitization, gate entry, or synthesis ever occurring. -/
theorem C10_empty_text_rejected (reqText : List Char) (h : stripText reqText = []) :
    tts_handler reqText = [TtsEvent.rejected 400] ∧
    TtsEvent.sanitizeText ∉ tts_handler reqText ∧
    TtsEvent.gateEnter ∉ tts_handler reqText ∧
    TtsEvent.synthesize ∉ tts_handler reqText := by
  refine ⟨?_, ?_, ?_, ?_⟩ <;> simp [tts_handler, h]

/-- Witness for C10: a whitespace-only request is rejected with HTTP 400
before any other processing. -/
theorem C10_empty_text_rejected_witness :
    tts_handler [' ', '\t'] = [TtsEvent.rejected 400] ∧
    TtsEvent.sanitizeText ∉ tts_handler [' ', '\t'] ∧
    TtsEvent.gateEnter ∉ tts_handler [' ', '\t'] ∧
    TtsEvent.synthesize ∉ tts_handler [' ', '\t'] :=
  C10_empty_text_rejected [' ', '\t'] (by decide)

/-- C4 counterexample: the claim says quantization rounds, but at the sample
`1/2` the code truncates `0.5 * 32767 = 16383.5` to `16383` while rounding
gives `16384`. -/
theorem C4_round_counterexample :
    pcm16_of_sample (1 / 2) = 16383 ∧ round (clip_sample (1 / 2) * 32767) = 16384 ∧
      pcm16_of_sample (1 / 2) ≠ round (clip_sample (1 / 2) * 32767) := by
  have hclip : clip_sample (1 / 2) = 1 / 2 := by
    unfold clip_sample
    rw [min_eq_right (by norm_num), max_eq_right (by norm_num)]
  have h1 : pcm16_of_sample (1 / 2) = 16383 := by
    unfold pcm16_of_sample truncQ
    rw [hclip, if_pos (by norm_num)]
    norm_num
  have h2 : round (clip_sample (1 / 2) * 32767) = 16384 := by
    rw [hclip, round_eq]
    norm_num
  exact ⟨h1, h2, by rw [h1, h2]; decide⟩

/-- C4 amended: every sample is clamped to `[-1, 1]` before quantization, and
quantization truncates toward zero: the quantized value lies in
`[-32767, 32767]` and differs from the exact product `clip(x) * 32767` by
less than one. -/
theorem C4_clip_trunc_quantization (x : ℚ) :
    -1 ≤ clip_sample x ∧ clip_sample x ≤ 1 ∧
    -32767 ≤ pcm16_of_sample x ∧ pcm16_of_sample x ≤ 32767 ∧
    |clip_sample x * 32767 - (pcm16_of_sample x : ℚ)| < 1 := by
  have h1 : -1 ≤ clip_sample x := le_max_left _ _
  have h2 : clip_sample x ≤ 1 := max_le (by norm_num) (min_le_left _ _)
  have hq1 : (-32767 : ℚ) ≤ clip_sample x * 32767 := by nlinarith
  have hq2 : clip_sample x * 32767 ≤ 32767 := by nlinarith
  unfold pcm16_of_sample truncQ
  by_cases h0 : (0 : ℚ) ≤ clip_sample x * 32767
  · rw [if_pos h0]
    have hfl := Int.floor_le (clip_sample x * 32767)
    have hfu := Int.lt_floor_add_one (clip_sample x * 32767)
    have hnn : (0 : ℤ) ≤ ⌊clip_sample x * 32767⌋ := Int.floor_nonneg.mpr h0
    have hub : ⌊clip_sample x * 32767⌋ ≤ 32767 := by
      have := Int.floor_mono hq2
      simpa using this
    refine ⟨h1, h2, by omega, hub, ?_⟩
    rw [abs_sub_lt_iff]
    constructor <;> linarith
  · rw [if_neg h0]
    have hcl := Int.le_ceil (clip_sample x * 32767)
    have hcu := Int.ceil_lt_add_one (clip_sample x * 32767)
    have hnp : ⌈clip_sample x * 32767⌉ ≤ 0 := by
      rw [Int.ceil_le]
      push_cast
      linarith [not_le.mp h0]
    have hlb : -32767 ≤ ⌈clip_sample x * 32767⌉ := by
      have := Int.ceil_mono hq1
      simpa using this
    refine ⟨h1, h2, hlb, by omega, ?_⟩
    rw [abs_sub_lt_iff]
    constructor <;> linarith

/-- C5 counterexample: the claim says the resampled count is
`round(len * target / source)`, but for one sample at 16000 Hz the code
computes `int(1 * 24000 / 16000) = 1` while rounding gives `round(1.5) = 2`. -/
theorem C5_round_counterexample :
    (resample_stage 1 16000).1 = 1 ∧
      round ((1 * (TARGET_SAMPLE_RATE : ℚ)) / 16000) = 2 ∧
      ((resample_stage 1 16000).1 : ℤ) ≠ round ((1 * (TARGET_SAMPLE_RATE : ℚ)) / 16000) := by
  have h1 : (resample_stage 1 16000).1 = 1 := by decide
  have h2 : round ((1 * (TARGET_SAMPLE_RATE : ℚ)) / 16000) = 2 := by
    rw [round_eq]
    norm_num [TARGET_SAMPLE_RATE]
  refine ⟨h1, h2, ?_⟩
  rw [h1, h2]
  decide

/-- C5 amended: resampling happens only when the source rate differs from
24000 Hz (samples pass through unchanged at 24000 Hz), and when it happens the
output count is the floor of `len * target / source`: it is the unique `c`
with `c * source <= len * target < (c + 1) * source`. -/
theorem C5_resample_floor (n sr : Nat) (hsr : 0 < sr) :
    (sr = TARGET_SAMPLE_RATE → resample_stage n sr = (n, sr)) ∧
    (sr ≠ TARGET_SAMPLE_RATE →
      (resample_stage n sr).2 = TARGET_SAMPLE_RATE ∧
      (resample_stage n sr).1 * sr ≤ n * TARGET_SAMPLE_RATE ∧
      n * TARGET_SAMPLE_RATE < ((resample_stage n sr).1 + 1) * sr) := by
  constructor
  · intro h
    simp [resample_stage, h]
  · intro h
    have hmod := Nat.mod_lt (n * TARGET_SAMPLE_RATE) hsr
    have hdm := Nat.div_add_mod (n * TARGET_SAMPLE_RATE) sr
    unfold resample_stage
    rw [if_neg h]
    refine ⟨rfl, Nat.div_mul_le_self _ _, ?_⟩
    calc n * TARGET_SAMPLE_RATE
        = sr * (n * TARGET_SAMPLE_RATE / sr) + n * TARGET_SAMPLE_RATE % sr := hdm.symm
      _ < sr * (n * TARGET_SAMPLE_RATE / sr) + sr := Nat.add_lt_add_left hmod _
      _ = (n * TARGET_SAMPLE_RATE / sr + 1) * sr := by ring

/-- Witness for C5: at 16000 Hz one input sample resamples to one output
sample, the floor of 1.5 output samples. -/
theorem C5_resample_floor_witness :
    (resample_stage 1 16000).2 = TARGET_SAMPLE_RATE ∧
    (resample_stage 1 16000).1 * 16000 ≤ 1 * TARGET_SAMPLE_RATE ∧
    1 * TARGET_SAMPLE_RATE < ((resample_stage 1 16000).1 + 1) * 16000 :=
  (C5_resample_floor 1 16000 (by decide)).2 (by decide)

/-! ## Chunk bounds (C1, C6) -/

/-- Stripping never lengthens a string. -/
theorem stripText_length_le (s : List Char) : (stripText s).length ≤ s.length := by
  unfold stripText stripRight
  calc ((s.dropWhile isWs).reverse.dropWhile isWs).reverse.length
      = ((s.dropWhile isWs).reverse.dropWhile isWs).length := List.length_reverse _
    _ ≤ (s.dropWhile isWs).reverse.length := (List.dropWhile_sublist _).length_le
    _ = (s.dropWhile isWs).length := List.length_reverse _
    _ ≤ s.length := (List.dropWhile_sublist _).length_le

/-- Every part produced by the hard-split loop is nonempty and at most
`max_chars` long. -/
theorem hardSplitFuel_bound (m : Nat) (fuel : Nat) (s : List Char) :
    ∀ p ∈ hardSplitFuel m fuel s, p.length ≤ m ∧ p ≠ [] := by
  induction fuel generalizing s with
  | zero => intro p hp; simp [hardSplitFuel] at hp
  | succ k ih =>
    intro p hp
    cases s with
    | nil => simp [hardSplitFuel] at hp
    | cons c rest =>
      simp only [hardSplitFuel] at hp
      by_cases hpart : stripText ((c :: rest).take m) = []
      · rw [if_pos hpart] at hp
        exact ih _ p hp
      · rw [if_neg hpart] at hp
        rcases List.mem_cons.mp hp with hEq | hMem
        · subst hEq
          refine ⟨?_, hpart⟩
          calc (stripText ((c :: rest).take m)).length
              ≤ ((c :: rest).take m).length := stripText_length_le _
            _ ≤ m := List.length_take_le _ _
        · exact ih _ p hMem

/-- Every chunk produced by the packing loop is nonempty and at most
`max_chars` long, provided the running chunk invariant holds. -/
theorem buildChunks_bound (m : Nat) (sents : List (List Char)) (current : List Char)
    (hcur : current = [] ∨ (current ≠ [] ∧ current.length ≤ m)) :
    ∀ c ∈ buildChunks m sents current, c.length ≤ m ∧ c ≠ [] := by
  induction sents generalizing current with
  | nil =>
    intro c hc
    simp only [buildChunks] at hc
    rcases hcur with hE | ⟨hne, hle⟩
    · rw [if_pos hE] at hc
      simp at hc
    · rw [if_neg hne] at hc
      rcases List.mem_singleton.mp hc with rfl
      exact ⟨hle, hne⟩
  | cons s rest ih =>
    intro c hc
    simp only [buildChunks] at hc
    by_cases hs : s = []
    · rw [if_pos hs] at hc
      exact ih current hcur c hc
    · rw [if_neg hs] at hc
      by_cases hlong : m < s.length
      · rw [if_pos hlong] at hc
        rcases List.mem_append.mp hc with hMem | hMem
        · exact hardSplitFuel_bound m s.length s c hMem
        · exact ih [] (Or.inl rfl) c hMem
      · rw [if_neg hlong] at hc
        by_cases hcure : current = []
        · rw [if_pos hcure] at hc
          exact ih s (Or.inr ⟨hs, not_lt.mp hlong⟩) c hc
        · rw [if_neg hcure] at hc
          by_cases hfit : current.length + 1 + s.length ≤ m
          · rw [if_pos hfit] at hc
            refine ih (current ++ ' ' :: s) (Or.inr ⟨by simp, ?_⟩) c hc
            simp only [List.length_append, List.length_cons]
            omega
          · rw [if_neg hfit] at hc
            rcases List.mem_cons.mp hc with hEq | hMem
            · subst hEq
              rcases hcur with hE | ⟨hne, hle⟩
              · exact absurd hE hcure
              · exact ⟨hle, hne⟩
            · exact ih s (Or.inr ⟨hs, not_lt.mp hlong⟩) c hMem

/-- C1 amended: for every text and every `max_chars > 0`, every chunk
returned by the segmenter has length at most `max_chars`; and whenever the
sanitized text is nonempty, every chunk is also nonempty.  (For text that
sanitizes to the empty string the segmenter returns the single empty
chunk.) -/
theorem C1_chunk_bound (t : List Char) (m : Nat) (hm : 0 < m) :
    (∀ c ∈ split_text_for_tts t m, c.length ≤ m) ∧
    (sanitize_tts_text t ≠ [] → ∀ c ∈ split_text_for_tts t m, c ≠ []) := by
  unfold split_text_for_tts
  by_cases hle : (sanitize_tts_text t).length ≤ m
  · rw [if_pos hle]
    constructor
    · intro c hc
      rcases List.mem_singleton.mp hc with rfl
      exact hle
    · intro hne c hc
      rcases List.mem_singleton.mp hc with rfl
      exact hne
  · rw [if_neg hle]
    have hb := buildChunks_bound m (splitSentences (sanitize_tts_text t)) [] (Or.inl rfl)
    exact ⟨fun c hc => (hb c hc).1, fun _ c hc => (hb c hc).2⟩

/-- Witness for C1: the text `"Hi"` with `max_chars = 1` hard-splits into
`["H", "i"]`; the chunk `"H"` is within the bound and nonempty. -/
theorem C1_chunk_bound_witness :
    (['H'] : List Char).length ≤ 1 ∧ (['H'] : List Char) ≠ [] :=
  ⟨(C1_chunk_bound ['H', 'i'] 1 (by decide)).1 ['H'] (by decide),
   (C1_chunk_bound ['H', 'i'] 1 (by decide)).2 (by decide) ['H'] (by decide)⟩

/-- The slice loop on the empty remainder produces nothing, for any fuel. -/
theorem rawSlicesFuel_nil (m k : Nat) : rawSlicesFuel m k [] = [] := by
  cases k <;> rfl

/-- The kept hard-split parts are exactly the raw slices after stripping and
dropping the empties, in order. -/
theorem hardSplitFuel_eq_filter (m : Nat) (fuel : Nat) (s : List Char) :
    hardSplitFuel m fuel s
      = ((rawSlicesFuel m fuel s).map stripText).filter (fun p => !p.isEmpty) := by
  induction fuel generalizing s with
  | zero => rfl
  | succ k ih =>
    cases s with
    | nil => rfl
    | cons c rest =>
      simp only [hardSplitFuel, rawSlicesFuel, List.map_cons, List.filter_cons]
      by_cases hpart : stripText ((c :: rest).take m) = []
      · rw [if_pos hpart, hpart]
        simpa using ih ((c :: rest).drop m)
      · rw [if_neg hpart]
        have hne : (!(stripText ((c :: rest).take m)).isEmpty) = true := by
          simpa [List.isEmpty_iff] using hpart
        rw [hne]
        simpa using congrArg (stripText ((c :: rest).take m) :: ·) (ih ((c :: rest).drop m))

/-- Every raw slice except the last has length exactly `max_chars`. -/
theorem rawSlicesFuel_sizes (m : Nat) (fuel : Nat) (s : List Char) :
    ∀ i, i + 1 < (rawSlicesFuel m fuel s).length →
      ((rawSlicesFuel m fuel s).getD i []).length = m := by
  induction fuel generalizing s with
  | zero => intro i hi; simp [rawSlicesFuel] at hi
  | succ k ih =>
    cases s with
    | nil => intro i hi; simp [rawSlicesFuel] at hi
    | cons c rest =>
      intro i hi
      simp only [rawSlicesFuel, List.length_cons] at hi
      cases i with
      | zero =>
        have hrec : rawSlicesFuel m k ((c :: rest).drop m) ≠ [] := by
          intro h0
          rw [h0] at hi
          simp at hi
        have hdrop : (c :: rest).drop m ≠ [] := by
          intro h0
          rw [h0, rawSlicesFuel_nil] at hrec
          exact hrec rfl
        have hlt : m < (c :: rest).length := by
          by_contra hge
          exact hdrop (List.drop_eq_nil_of_le (not_lt.mp hge))
        simp only [rawSlicesFuel, List.getD_cons_zero, List.length_take]
        omega
      | succ j =>
        simp only [rawSlicesFuel, List.getD_cons_succ]
        exact ih _ j (by simpa using hi)

/-- C6 amended: a sentence longer than `max_chars` is cut into consecutive
raw slices where every slice except possibly the last has length exactly
`max_chars`; each slice is then stripped of surrounding whitespace, stripped
slices that become empty are dropped, and each remaining stripped slice
becomes its own chunk, in order. -/
theorem C6_hard_split_amended (m : Nat) (s : List Char) (hm : 0 < m) :
    hardSplitParts m s = ((rawSlices m s).map stripText).filter (fun p => !p.isEmpty) ∧
    ∀ i, i + 1 < (rawSlices m s).length → ((rawSlices m s).getD i []).length = m :=
  ⟨hardSplitFuel_eq_filter m s.length s, rawSlicesFuel_sizes m s.length s⟩

/-- Witness for C6: hard-splitting `"abc"` at `max_chars = 2` keeps the
stripped slices `["ab", "c"]`, and the non-last raw slice has length exactly
2. -/
theorem C6_hard_split_amended_witness :
    hardSplitParts 2 ("abc".toList)
        = ((rawSlices 2 ("abc".toList)).map stripText).filter (fun p => !p.isEmpty) ∧
    ((rawSlices 2 ("abc".toList)).getD 0 []).length = 2 :=
  ⟨(C6_hard_split_amended 2 ("abc".toList) (by decide)).1,
   (C6_hard_split_amended 2 ("abc".toList) (by decide)).2 0 (by decide)⟩

/-- C1 counterexample: for the whitespace-only text `" "` and `max_chars = 1`
the segmenter returns the single chunk `""`, which is empty, refuting the
claim that every returned chunk is non-empty. -/
theorem C1_empty_chunk_counterexample :
    split_text_for_tts [' '] 1 = [[]] ∧ ¬ (∀ c ∈ split_text_for_tts [' '] 1, c ≠ []) := by
  refine ⟨by decide, ?_⟩
  intro h
  exact h [] (by decide) rfl

/-- C2 counterexample: for the text `"ab"` and `max_chars = 1` the hard split
produces the chunks `["a", "b"]`, whose space-joined concatenation `"a b"`
differs from the sanitized text `"ab"`. -/
theorem C2_join_counterexample :
    joinSpace (split_text_for_tts ['a', 'b'] 1) ≠ sanitize_tts_text ['a', 'b'] := by
  decide

/-- C3 counterexample: sanitizing `"****a****"` once yields `"*a*"` (the star
regex consumes only three of the four stars on each side), and sanitizing
again yields `"a"`, so the sanitizer is not idempotent. -/
theorem C3_idempotence_counterexample :
    sanitize_tts_text (sanitize_tts_text ("****a****".toList)) ≠
      sanitize_tts_text ("****a****".toList) := by
  decide

/-- C6 counterexample: the sanitized text `"a bc"` is a single sentence of
length 4; with `max_chars = 2` the code produces the chunks `["a", "bc"]`:
the first (non-last) chunk has length 1, not exactly `max_chars = 2`, because
slices are stripped of whitespace after cutting. -/
theorem C6_exact_slice_counterexample :
    split_text_for_tts ("a bc".toList) 2 = [['a'], ['b', 'c']] ∧
      0 + 1 < (split_text_for_tts ("a bc".toList) 2).length ∧
      ((split_text_for_tts ("a bc".toList) 2).getD 0 []).length ≠ 2 := by
  refine ⟨by decide, by decide, by decide⟩

/-- C7: the spec's example scenario, checked concretely: `"Hello world. "`
repeated 50 times with `max_chars = 500` segments into exactly 2 chunks, each
nonempty and at most 500 characters, whose space-joined concatenation equals
the sanitized input. -/
theorem C7_hello_world_example :
    (split_text_for_tts helloText 500).length = 2 ∧
      (∀ c ∈ split_text_for_tts helloText 500, c.length ≤ 500 ∧ c ≠ []) ∧
      joinSpace (split_text_for_tts helloText 500) = sanitize_tts_text helloText := by
  decide

/-! ## Characters surviving sanitization (for C2, C3) -/

/-- Stripping only removes characters. -/
theorem mem_stripText {c : Char} {s : List Char} (h : c ∈ stripText s) : c ∈ s := by
  unfold stripText stripRight at h
  rw [List.mem_reverse] at h
  have h1 := List.dropWhile_subset _ h
  rw [List.mem_reverse] at h1
  exact List.dropWhile_subset _ h1

/-- A successful star match captures characters of the input, and the
remainder is made of characters of the input. -/
theorem starMatchAt_mem {s g rem : List Char} (h : starMatchAt s = some (g, rem)) :
    (∀ c ∈ g, c ∈ s) ∧ (∀ c ∈ rem, c ∈ s) := by
  simp only [starMatchAt] at h
  split_ifs at h
  rw [Option.some_inj, Prod.mk.injEq] at h
  obtain ⟨hg, hrem⟩ := h
  constructor
  · intro c hc
    rw [← hg] at hc
    exact List.drop_subset _ _ (List.takeWhile_subset _ hc)
  · intro c hc
    rw [← hrem] at hc
    exact List.drop_subset _ _ (List.drop_subset _ _ (List.drop_subset _ _ hc))

/-- The star-stripping scan only ever emits characters of its input. -/
theorem mem_stripStarsFuel {c : Char} :
    ∀ (fuel : Nat) (s : List Char), c ∈ stripStarsFuel fuel s → c ∈ s := by
  intro fuel
  induction fuel with
  | zero => intro s h; exact h
  | succ k ih =>
    intro s h
    cases s with
    | nil => simpa [stripStarsFuel] using h
    | cons a rest =>
      simp only [stripStarsFuel] at h
      cases hmatch : starMatchAt (a :: rest) with
      | none =>
        rw [hmatch] at h
        rcases List.mem_cons.mp h with rfl | hMem
        · exact List.mem_cons_self _ _
        · exact List.mem_cons_of_mem _ (ih rest hMem)
      | some pr =>
        obtain ⟨g, rem⟩ := pr
        rw [hmatch] at h
        rcases List.mem_append.mp h with hMem | hMem
        · exact (starMatchAt_mem hmatch).1 c hMem
        · exact (starMatchAt_mem hmatch).2 c (ih rem hMem)

/-- The newline-collapsing pass emits only input characters and spaces. -/
theorem mem_collapseNlFuel {c : Char} :
    ∀ (fuel : Nat) (s : List Char), c ∈ collapseNlFuel fuel s → c ∈ s ∨ c = ' ' := by
  intro fuel
  induction fuel with
  | zero => intro s h; exact Or.inl h
  | succ k ih =>
    intro s h
    cases s with
    | nil => simpa [collapseNlFuel] using h
    | cons a rest =>
      simp only [collapseNlFuel] at h
      by_cases hws : isWs a
      · rw [if_pos hws] at h
        by_cases hnl : ((a :: rest).takeWhile isWs).contains '\n'
        · rw [if_pos hnl] at h
          rcases List.mem_cons.mp h with rfl | hMem
          · exact Or.inr rfl
          · rcases ih _ hMem with hIn | hSp
            · exact Or.inl (List.dropWhile_subset _ hIn)
            · exact Or.inr hSp
        · rw [if_neg hnl] at h
          rcases List.mem_append.mp h with hMem | hMem
          · exact Or.inl (List.takeWhile_subset _ hMem)
          · rcases ih _ hMem with hIn | hSp
            · exact Or.inl (List.dropWhile_subset _ hIn)
            · exact Or.inr hSp
      · rw [if_neg hws] at h
        rcases List.mem_cons.mp h with rfl | hMem
        · exact Or.inl (List.mem_cons_self _ _)
        · rcases ih _ hMem with hIn | hSp
          · exact Or.inl (List.mem_cons_of_mem _ hIn)
          · exact Or.inr hSp

/-- The whitespace-collapsing pass emits only input characters and spaces. -/
theorem mem_collapseWsAux {c : Char} :
    ∀ (s : List Char) (b : Bool), c ∈ collapseWsAux b s → c ∈ s ∨ c = ' ' := by
  intro s
  induction s with
  | nil => intro b h; simpa [collapseWsAux] using h
  | cons a rest ih =>
    intro b h
    simp only [collapseWsAux] at h
    by_cases hws : isWs a
    · rw [if_pos hws] at h
      cases b with
      | true =>
        rcases ih true h with hIn | hSp
        · exact Or.inl (List.mem_cons_of_mem _ hIn)
        · exact Or.inr hSp
      | false =>
        rcases List.mem_cons.mp h with rfl | hMem
        · exact Or.inr rfl
        · rcases ih true hMem with hIn | hSp
          · exact Or.inl (List.mem_cons_of_mem _ hIn)
          · exact Or.inr hSp
    · rw [if_neg hws] at h
      rcases List.mem_cons.mp h with rfl | hMem
      · exact Or.inl (List.mem_cons_self _ _)
      · rcases ih false hMem with hIn | hSp
        · exact Or.inl (List.mem_cons_of_mem _ hIn)
        · exact Or.inr hSp

/-- A non-space character of the sanitized text already survived the
star-stripping and hostile-character passes. -/
theorem mem_sanitize_strong {t : List Char} {c : Char} (hc : c ∈ sanitize_tts_text t)
    (hne : c ≠ ' ') : c ∈ removeHostile (stripStars t) := by
  unfold sanitize_tts_text collapseWs collapseNl at hc
  have h1 := mem_stripText hc
  rcases mem_collapseWsAux _ _ h1 with h2 | h2
  · rcases mem_collapseNlFuel _ _ h2 with h3 | h3
    · exact h3
    · exact absurd h3 hne
  · exact absurd h2 hne

/-- Every character of the sanitized text is a character of the input or a
space. -/
theorem mem_sanitize {t : List Char} {c : Char} (hc : c ∈ sanitize_tts_text t) :
    c ∈ t ∨ c = ' ' := by
  by_cases hsp : c = ' '
  · exact Or.inr hsp
  · have h1 := mem_sanitize_strong hc hsp
    have h2 := List.mem_filter.mp h1
    exact Or.inl (mem_stripStarsFuel _ _ h2.1)

/-! ## The sanitized text is normalized (for C2, C3) -/

/-- Every whitespace character emitted by the whitespace collapse is a
space. -/
theorem ws_space_collapseWsAux {c : Char} :
    ∀ (s : List Char) (b : Bool), c ∈ collapseWsAux b s → isWs c = true → c = ' ' := by
  intro s
  induction s with
  | nil => intro b h; simp [collapseWsAux] at h
  | cons a rest ih =>
    intro b h hws
    simp only [collapseWsAux] at h
    by_cases hwa : isWs a
    · rw [if_pos hwa] at h
      cases b with
      | true => exact ih true h hws
      | false =>
        rcases List.mem_cons.mp h with rfl | hMem
        · rfl
        · exact ih true hMem hws
    · rw [if_neg hwa] at h
      rcases List.mem_cons.mp h with rfl | hMem
      · exact absurd hws (by simpa using hwa)
      · exact ih false hMem hws

/-- In skipping mode the collapse emits a non-whitespace first character. -/
theorem collapseWsAux_true_head :
    ∀ (s : List Char) (c : Char), (collapseWsAux true s).head? = some c → isWs c = false := by
  intro s
  induction s with
  | nil => intro c h; simp [collapseWsAux] at h
  | cons a rest ih =>
    intro c h
    simp only [collapseWsAux] at h
    by_cases hwa : isWs a
    · rw [if_pos hwa] at h
      exact ih c h
    · rw [if_neg hwa] at h
      rw [List.head?_cons, Option.some_inj] at h
      rw [← h]
      simpa using hwa

/-- The whitespace collapse never emits two adjacent whitespace characters. -/
theorem collapseWsAux_chain : ∀ (s : List Char) (b : Bool), noTwoWs (collapseWsAux b s) := by
  intro s
  induction s with
  | nil => intro b; simp [collapseWsAux, noTwoWs]
  | cons a rest ih =>
    intro b
    simp only [collapseWsAux]
    by_cases hwa : isWs a
    · rw [if_pos hwa]
      cases b with
      | true => exact ih true
      | false =>
        refine List.chain'_cons'.mpr ⟨?_, ih true⟩
        intro y hy
        have hyws := collapseWsAux_true_head rest y hy
        exact fun hcontra => by rw [hyws] at hcontra; exact absurd hcontra.2 (by simp)
    · rw [if_neg hwa]
      refine List.chain'_cons'.mpr ⟨?_, ih false⟩
      intro y hy
      exact fun hcontra => by
        rw [show isWs a = false from by simpa using hwa] at hcontra
        exact absurd hcontra.1 (by simp)

/-- `noTwoWs` is preserved by reversal. -/
theorem noTwoWs_reverse {s : List Char} (h : noTwoWs s) : noTwoWs s.reverse := by
  unfold noTwoWs at h ⊢
  rw [List.chain'_reverse]
  exact h.imp (fun a b hab hcontra => hab ⟨hcontra.2, hcontra.1⟩)

/-- `noTwoWs` is preserved by stripping. -/
theorem noTwoWs_stripText {s : List Char} (h : noTwoWs s) : noTwoWs (stripText s) := by
  unfold stripText stripRight
  have h1 : noTwoWs (s.dropWhile isWs) := h.suffix (List.dropWhile_suffix _)
  have h2 := noTwoWs_reverse h1
  have h3 : noTwoWs ((s.dropWhile isWs).reverse.dropWhile isWs) :=
    h2.suffix (List.dropWhile_suffix _)
  exact noTwoWs_reverse h3

/-- The head of a `dropWhile` result does not satisfy the predicate. -/
theorem head_dropWhile_not (p : Char → Bool) :
    ∀ (l : List Char) (c : Char), (l.dropWhile p).head? = some c → p c = false := by
  intro l
  induction l with
  | nil => intro c h; simp [List.dropWhile] at h
  | cons a rest ih =>
    intro c h
    rw [List.dropWhile_cons] at h
    by_cases hpa : p a
    · rw [if_pos hpa] at h
      exact ih c h
    · rw [if_neg hpa] at h
      rw [List.head?_cons, Option.some_inj] at h
      rw [← h]
      simpa using hpa

/-- The stripped string does not begin with whitespace. -/
theorem stripText_head_not_ws {s : List Char} {c : Char}
    (h : (stripText s).head? = some c) : isWs c = false := by
  unfold stripText stripRight at h
  obtain ⟨t, ht⟩ := List.dropWhile_suffix (l := (s.dropWhile isWs).reverse) (p := isWs)
  have hv : s.dropWhile isWs
      = ((s.dropWhile isWs).reverse.dropWhile isWs).reverse ++ t.reverse := by
    have h2 := congrArg List.reverse ht
    rw [List.reverse_append, List.reverse_reverse] at h2
    exact h2.symm
  cases hwr : ((s.dropWhile isWs).reverse.dropWhile isWs).reverse with
  | nil =>
    rw [hwr] at h
    simp at h
  | cons x xs =>
    rw [hwr, List.head?_cons, Option.some_inj] at h
    have hhead : (s.dropWhile isWs).head? = some x := by
      rw [hv, hwr, List.cons_append, List.head?_cons]
    rw [← h]
    exact head_dropWhile_not isWs s x hhead

/-- The stripped string does not end with whitespace. -/
theorem stripText_getLast_not_ws {s : List Char} {c : Char}
    (h : (stripText s).getLast? = some c) : isWs c = false := by
  unfold stripText stripRight at h
  rw [List.getLast?_reverse] at h
  exact head_dropWhile_not isWs _ c h

/-- Whitespace in the sanitized text is always a single space character. -/
theorem sanitize_ws_space (t : List Char) :
    ∀ c ∈ sanitize_tts_text t, isWs c = true → c = ' ' := by
  intro c hc hws
  unfold sanitize_tts_text collapseWs at hc
  exact ws_space_collapseWsAux _ _ (mem_stripText hc) hws

/-- The sanitized text has no two adjacent whitespace characters. -/
theorem sanitize_noTwoWs (t : List Char) : noTwoWs (sanitize_tts_text t) := by
  unfold sanitize_tts_text collapseWs
  exact noTwoWs_stripText (collapseWsAux_chain _ false)

/-- The sanitized text does not begin with whitespace. -/
theorem sanitize_head_not_ws (t : List Char) :
    ∀ c, (sanitize_tts_text t).head? = some c → isWs c = false := by
  intro c h
  exact stripText_head_not_ws h

/-- The sanitized text does not end with whitespace. -/
theorem sanitize_getLast_not_ws (t : List Char) :
    ∀ c, (sanitize_tts_text t).getLast? = some c → isWs c = false := by
  intro c h
  exact stripText_getLast_not_ws h

/-! ## Sentence splitting reconstructs normalized text (for C2) -/

/-- `joinSpace` on a list with a nonempty tail inserts one space. -/
theorem joinSpace_cons_of_ne_nil (c : List Char) (cs : List (List Char)) (h : cs ≠ []) :
    joinSpace (c :: cs) = c ++ ' ' :: joinSpace cs := by
  cases cs with
  | nil => exact absurd rfl h
  | cons d ds => rfl

/-- The sentence splitter always returns at least one (possibly empty)
sentence, like Python's `re.split`. -/
theorem splitSentAux_ne_nil :
    ∀ (l : List Char) (b : Bool) (p : Option Char) (acc : List Char),
      splitSentAux b p acc l ≠ [] := by
  intro l
  induction l with
  | nil => intro b p acc; cases b <;> simp [splitSentAux]
  | cons c rest ih =>
    intro b p acc
    cases b with
    | true =>
      simp only [splitSentAux]
      split
      · exact ih true (some c) acc
      · exact ih false (some c) (c :: acc)
    | false =>
      simp only [splitSentAux]
      split
      · simp
      · exact ih false (some c) (c :: acc)

/-- On a normalized string (whitespace only single spaces, no two adjacent,
no trailing whitespace) the splitter loses exactly one joining space per
boundary: joining the sentences with single spaces rebuilds the string. -/
theorem splitSentAux_join :
    ∀ (n : Nat) (l : List Char), l.length ≤ n →
      (∀ c ∈ l, isWs c = true → c = ' ') → noTwoWs l →
      (∀ c, l.getLast? = some c → isWs c = false) →
      ∀ (p : Option Char) (acc : List Char),
        joinSpace (splitSentAux false p acc l) = acc.reverse ++ l := by
  intro n
  induction n with
  | zero =>
    intro l hlen _ _ _ p acc
    have hl : l = [] := List.length_eq_zero.mp (Nat.le_zero.mp hlen)
    subst hl
    simp [splitSentAux, joinSpace]
  | succ k ih =>
    intro l hlen hws hchain hlast p acc
    cases l with
    | nil => simp [splitSentAux, joinSpace]
    | cons c rest =>
      by_cases hsplit : (isWs c && punctOpt p) = true
      · have hboth : isWs c = true ∧ punctOpt p = true := by simpa using hsplit
        have hwc : isWs c = true := hboth.1
        have hc : c = ' ' := hws c (List.mem_cons_self _ _) hwc
        cases rest with
        | nil =>
          exfalso
          have hend := hlast c (by simp)
          rw [hend] at hwc
          exact Bool.false_ne_true hwc
        | cons d rest2 =>
          have hwd : isWs d = false := by
            have hR := (List.chain'_cons'.mp hchain).1 d rfl
            by_contra hcontra
            exact hR ⟨hwc, by simpa using hcontra⟩
          have step1 : splitSentAux false p acc (c :: d :: rest2)
              = acc.reverse :: splitSentAux true (some c) [] (d :: rest2) := by
            simp [splitSentAux, hsplit]
          have step2 : splitSentAux true (some c) [] (d :: rest2)
              = splitSentAux false (some d) [d] rest2 := by
            simp [splitSentAux, hwd]
          have hws2 : ∀ x ∈ rest2, isWs x = true → x = ' ' :=
            fun x hx => hws x (List.mem_cons_of_mem _ (List.mem_cons_of_mem _ hx))
          have hchain2 : noTwoWs rest2 :=
            (List.chain'_cons'.mp (List.chain'_cons'.mp hchain).2).2
          have hlast2 : ∀ x, rest2.getLast? = some x → isWs x = false := by
            intro x hx
            apply hlast
            cases rest2 with
            | nil => simp at hx
            | cons e es =>
              rw [List.getLast?_cons_cons, List.getLast?_cons_cons]
              exact hx
          have hlen2 : rest2.length ≤ k := by
            simp only [List.length_cons] at hlen
            omega
          have hne := splitSentAux_ne_nil rest2 false (some d) [d]
          rw [step1, step2, joinSpace_cons_of_ne_nil _ _ hne,
            ih rest2 hlen2 hws2 hchain2 hlast2 (some d) [d]]
          subst hc
          simp
      · have hF : (isWs c && punctOpt p) = false := Bool.eq_false_iff.mpr hsplit
        have step : splitSentAux false p acc (c :: rest)
            = splitSentAux false (some c) (c :: acc) rest := by
          simp [splitSentAux, hF]
        have hws1 : ∀ x ∈ rest, isWs x = true → x = ' ' :=
          fun x hx => hws x (List.mem_cons_of_mem _ hx)
        have hchain1 : noTwoWs rest := (List.chain'_cons'.mp hchain).2
        have hlast1 : ∀ x, rest.getLast? = some x → isWs x = false := by
          intro x hx
          apply hlast
          cases rest with
          | nil => simp at hx
          | cons e es =>
            rw [List.getLast?_cons_cons]
            exact hx
        have hlen1 : rest.length ≤ k := by
          simp only [List.length_cons] at hlen
          omega
        rw [step, ih rest hlen1 hws1 hchain1 hlast1 (some c) (c :: acc)]
        simp

/-- `re.split` applied to a nonempty normalized string yields single-space
reconstruction. -/
theorem splitSentences_join (s : List Char)
    (hws : ∀ c ∈ s, isWs c = true → c = ' ') (hchain : noTwoWs s)
    (hlast : ∀ c, s.getLast? = some c → isWs c = false) :
    joinSpace (splitSentences s) = s := by
  have h := splitSentAux_join s.length s le_rfl hws hchain hlast none []
  simpa [splitSentences] using h

/-- On a normalized string with no trailing whitespace, every sentence the
splitter emits is nonempty, as long as the accumulator invariant holds. -/
theorem splitSentAux_nonempty :
    ∀ (n : Nat) (l : List Char), l.length ≤ n → noTwoWs l →
      (∀ c, l.getLast? = some c → isWs c = false) →
      ∀ (p : Option Char) (acc : List Char),
        (acc = [] → punctOpt p = false ∧ l ≠ []) →
        ∀ x ∈ splitSentAux false p acc l, x ≠ [] := by
  intro n
  induction n with
  | zero =>
    intro l hlen _ _ p acc hinv x hx
    have hl : l = [] := List.length_eq_zero.mp (Nat.le_zero.mp hlen)
    subst hl
    simp only [splitSentAux, List.mem_singleton] at hx
    subst hx
    intro hxe
    have hacc : acc = [] := by simpa using congrArg List.reverse hxe
    exact (hinv hacc).2 rfl
  | succ k ih =>
    intro l hlen hchain hlast p acc hinv x hx
    cases l with
    | nil =>
      simp only [splitSentAux, List.mem_singleton] at hx
      subst hx
      intro hxe
      have hacc : acc = [] := by simpa using congrArg List.reverse hxe
      exact (hinv hacc).2 rfl
    | cons c rest =>
      by_cases hsplit : (isWs c && punctOpt p) = true
      · have hboth : isWs c = true ∧ punctOpt p = true := by simpa using hsplit
        have hwc : isWs c = true := hboth.1
        have hpp : punctOpt p = true := hboth.2
        have hacc : acc ≠ [] := by
          intro h0
          rw [(hinv h0).1] at hpp
          exact Bool.false_ne_true hpp
        cases rest with
        | nil =>
          exfalso
          have hend := hlast c (by simp)
          rw [hend] at hwc
          exact Bool.false_ne_true hwc
        | cons d rest2 =>
          have hwd : isWs d = false := by
            have hR := (List.chain'_cons'.mp hchain).1 d rfl
            by_contra hcontra
            exact hR ⟨hwc, by simpa using hcontra⟩
          have step1 : splitSentAux false p acc (c :: d :: rest2)
              = acc.reverse :: splitSentAux true (some c) [] (d :: rest2) := by
            simp [splitSentAux, hsplit]
          have step2 : splitSentAux true (some c) [] (d :: rest2)
              = splitSentAux false (some d) [d] rest2 := by
            simp [splitSentAux, hwd]
          rw [step1, step2] at hx
          rcases List.mem_cons.mp hx with rfl | hMem
          · simpa using hacc
          · have hchain2 : noTwoWs rest2 :=
              (List.chain'_cons'.mp (List.chain'_cons'.mp hchain).2).2
            have hlast2 : ∀ y, rest2.getLast? = some y → isWs y = false := by
              intro y hy
              apply hlast
              cases rest2 with
              | nil => simp at hy
              | cons e es =>
                rw [List.getLast?_cons_cons, List.getLast?_cons_cons]
                exact hy
            have hlen2 : rest2.length ≤ k := by
              simp only [List.length_cons] at hlen
              omega
            exact ih rest2 hlen2 hchain2 hlast2 (some d) [d]
              (fun h0 => absurd h0 (by simp)) x hMem
      · have hF : (isWs c && punctOpt p) = false := Bool.eq_false_iff.mpr hsplit
        have step : splitSentAux false p acc (c :: rest)
            = splitSentAux false (some c) (c :: acc) rest := by
          simp [splitSentAux, hF]
        rw [step] at hx
        have hchain1 : noTwoWs rest := (List.chain'_cons'.mp hchain).2
        have hlast1 : ∀ y, rest.getLast? = some y → isWs y = false := by
          intro y hy
          apply hlast
          cases rest with
          | nil => simp at hy
          | cons e es =>
            rw [List.getLast?_cons_cons]
            exact hy
        have hlen1 : rest.length ≤ k := by
          simp only [List.length_cons] at hlen
          omega
        exact ih rest hlen1 hchain1 hlast1 (some c) (c :: acc)
          (fun h0 => absurd h0 (by simp)) x hx

/-! ## Greedy packing preserves the space-join (for C2) -/

/-- The packing loop with a nonempty running chunk and no over-long sentence
never returns the empty chunk list. -/
theorem buildChunks_ne_nil (m : Nat) :
    ∀ (sents : List (List Char)) (current : List Char),
      (∀ s ∈ sents, s ≠ [] ∧ s.length ≤ m) → current ≠ [] →
      buildChunks m sents current ≠ [] := by
  intro sents
  induction sents with
  | nil =>
    intro current _ hcur
    simp [buildChunks, if_neg hcur]
  | cons s rest ih =>
    intro current hall hcur
    have hs := (hall s (List.mem_cons_self _ _)).1
    have hle := (hall s (List.mem_cons_self _ _)).2
    have hall2 : ∀ x ∈ rest, x ≠ [] ∧ x.length ≤ m :=
      fun x hx => hall x (List.mem_cons_of_mem _ hx)
    simp only [buildChunks, if_neg hs, if_neg (not_lt.mpr hle), if_neg hcur]
    by_cases hfit : current.length + 1 + s.length ≤ m
    · rw [if_pos hfit]
      exact ih _ hall2 (by simp)
    · rw [if_neg hfit]
      simp

/-- Merging a chunk across a joining space does not change the join. -/
theorem joinSpace_merge (a b : List Char) (cs : List (List Char)) :
    joinSpace ((a ++ ' ' :: b) :: cs) = joinSpace (a :: b :: cs) := by
  cases cs with
  | nil => rfl
  | cons e es =>
    rw [joinSpace_cons_of_ne_nil _ _ (List.cons_ne_nil _ _),
      joinSpace_cons_of_ne_nil _ _ (List.cons_ne_nil _ _),
      joinSpace_cons_of_ne_nil _ _ (List.cons_ne_nil _ _)]
    simp

/-- Greedy packing of nonempty, in-bound sentences preserves the space-join. -/
theorem buildChunks_join (m : Nat) :
    ∀ (sents : List (List Char)) (current : List Char),
      (∀ s ∈ sents, s ≠ [] ∧ s.length ≤ m) → current ≠ [] →
      joinSpace (buildChunks m sents current) = joinSpace (current :: sents) := by
  intro sents
  induction sents with
  | nil =>
    intro current _ hcur
    simp [buildChunks, if_neg hcur]
  | cons s rest ih =>
    intro current hall hcur
    have hs := (hall s (List.mem_cons_self _ _)).1
    have hle := (hall s (List.mem_cons_self _ _)).2
    have hall2 : ∀ x ∈ rest, x ≠ [] ∧ x.length ≤ m :=
      fun x hx => hall x (List.mem_cons_of_mem _ hx)
    simp only [buildChunks, if_neg hs, if_neg (not_lt.mpr hle), if_neg hcur]
    by_cases hfit : current.length + 1 + s.length ≤ m
    · rw [if_pos hfit, ih _ hall2 (by simp), joinSpace_merge]
    · rw [if_neg hfit]
      have hne := buildChunks_ne_nil m rest s hall2 hs
      rw [joinSpace_cons_of_ne_nil _ _ hne, ih _ hall2 hs,
        show joinSpace (current :: s :: rest) = current ++ ' ' :: joinSpace (s :: rest) from
          joinSpace_cons_of_ne_nil _ _ (List.cons_ne_nil _ _)]

/-- Entering the packing loop with the empty running chunk. -/
theorem buildChunks_join_entry (m : Nat) (sents : List (List Char))
    (hne : sents ≠ []) (hall : ∀ s ∈ sents, s ≠ [] ∧ s.length ≤ m) :
    joinSpace (buildChunks m sents []) = joinSpace sents := by
  cases sents with
  | nil => exact absurd rfl hne
  | cons s rest =>
    have hs := (hall s (List.mem_cons_self _ _)).1
    have hle := (hall s (List.mem_cons_self _ _)).2
    have hall2 : ∀ x ∈ rest, x ≠ [] ∧ x.length ≤ m :=
      fun x hx => hall x (List.mem_cons_of_mem _ hx)
    simp only [buildChunks, if_neg hs, if_neg (not_lt.mpr hle), if_pos rfl]
    exact buildChunks_join m rest s hall2 hs

/-- C2 amended: whenever every sentence of the sanitized text fits in
`max_chars` (no hard split is needed), concatenating the chunks in output
order joined by single spaces reproduces the sanitized text exactly. -/
theorem C2_join_preservation (t : List Char) (m : Nat)
    (hsent : ∀ s ∈ splitSentences (sanitize_tts_text t), s.length ≤ m) :
    joinSpace (split_text_for_tts t m) = sanitize_tts_text t := by
  unfold split_text_for_tts
  by_cases hle : (sanitize_tts_text t).length ≤ m
  · rw [if_pos hle]
    rfl
  · rw [if_neg hle]
    have hnsne : sanitize_tts_text t ≠ [] := by
      intro h0
      rw [h0] at hle
      exact hle (by simp)
    have hjoin := splitSentences_join (sanitize_tts_text t) (sanitize_ws_space t)
      (sanitize_noTwoWs t) (sanitize_getLast_not_ws t)
    have hnonempty := splitSentAux_nonempty (sanitize_tts_text t).length (sanitize_tts_text t)
      le_rfl (sanitize_noTwoWs t) (sanitize_getLast_not_ws t) none []
      (fun _ => ⟨rfl, hnsne⟩)
    have hall : ∀ s ∈ splitSentences (sanitize_tts_text t), s ≠ [] ∧ s.length ≤ m :=
      fun s hs => ⟨hnonempty s hs, hsent s hs⟩
    have hsne : splitSentences (sanitize_tts_text t) ≠ [] :=
      splitSentAux_ne_nil _ false none []
    rw [buildChunks_join_entry m _ hsne hall, hjoin]

/-- Witness for C2: `"Hello. World."` with `max_chars = 8` splits into two
sentences of length 6; the chunks `["Hello.", "World."]` joined with a space
rebuild the sanitized text. -/
theorem C2_join_preservation_witness :
    joinSpace (split_text_for_tts ("Hello. World.".toList) 8)
      = sanitize_tts_text ("Hello. World.".toList) :=
  C2_join_preservation ("Hello. World.".toList) 8 (by decide)

/-! ## Sanitization is a no-op on its own output when no star survives (C3) -/

/-- The star scan is the identity on star-free strings, for any fuel. -/
theorem stripStarsFuel_id :
    ∀ (fuel : Nat) (s : List Char), '*' ∉ s → stripStarsFuel fuel s = s := by
  intro fuel
  induction fuel with
  | zero => intro s _; rfl
  | succ k ih =>
    intro s hstar
    cases s with
    | nil => rfl
    | cons c rest =>
      have hc : ¬(c = '*') := fun h => hstar (h ▸ List.mem_cons_self _ _)
      have h0 : starCount (c :: rest) = 0 := by
        simp [starCount, hc]
      have hmatch : starMatchAt (c :: rest) = none := by
        unfold starMatchAt
        rw [h0]
        simp
      simp only [stripStarsFuel, hmatch]
      rw [ih rest (fun h => hstar (List.mem_cons_of_mem _ h))]

/-- Removing hostile characters is the identity when none are present. -/
theorem removeHostile_id (s : List Char) (h : ∀ c ∈ s, isHostile c = false) :
    removeHostile s = s := by
  unfold removeHostile
  apply List.filter_eq_self.mpr
  intro a ha
  rw [h a ha]
  rfl

/-- The newline collapse is the identity on newline-free strings. -/
theorem collapseNlFuel_id :
    ∀ (fuel : Nat) (s : List Char), '\n' ∉ s → collapseNlFuel fuel s = s := by
  intro fuel
  induction fuel with
  | zero => intro s _; rfl
  | succ k ih =>
    intro s hnl
    cases s with
    | nil => rfl
    | cons c rest =>
      simp only [collapseNlFuel]
      by_cases hws : isWs c
      · rw [if_pos hws]
        have hcon : ((c :: rest).takeWhile isWs).contains '\n' = false := by
          by_contra hcontra
          have hmem : '\n' ∈ (c :: rest).takeWhile isWs := by
            have hb : ((c :: rest).takeWhile isWs).contains '\n' = true := by
              revert hcontra
              cases ((c :: rest).takeWhile isWs).contains '\n' <;> simp
            simpa using hb
          exact hnl (List.takeWhile_subset _ hmem)
        rw [hcon]
        simp only [Bool.false_eq_true, if_false]
        rw [ih _ (fun h => hnl (List.dropWhile_subset _ h))]
        exact List.takeWhile_append_dropWhile isWs (c :: rest)
      · rw [if_neg hws]
        rw [ih _ (fun h => hnl (List.mem_cons_of_mem _ h))]

/-- Skipping mode and normal mode agree when the next character is not
whitespace. -/
theorem collapseWsAux_skip (s : List Char)
    (h : ∀ c, s.head? = some c → isWs c = false) :
    collapseWsAux true s = collapseWsAux false s := by
  cases s with
  | nil => rfl
  | cons d rest =>
    have hd : isWs d = false := h d rfl
    simp [collapseWsAux, hd]

/-- The whitespace collapse is the identity on strings whose whitespace is
single spaces with no two adjacent. -/
theorem collapseWsAux_id : ∀ (s : List Char), noTwoWs s →
    (∀ c ∈ s, isWs c = true → c = ' ') → collapseWsAux false s = s := by
  intro s
  induction s with
  | nil => intro _ _; rfl
  | cons c rest ih =>
    intro hchain hws
    have hchain2 : noTwoWs rest := (List.chain'_cons'.mp hchain).2
    have hws2 : ∀ x ∈ rest, isWs x = true → x = ' ' :=
      fun x hx => hws x (List.mem_cons_of_mem _ hx)
    by_cases hwc : isWs c
    · have hc : c = ' ' := hws c (List.mem_cons_self _ _) (by simpa using hwc)
      have hskip : collapseWsAux true rest = collapseWsAux false rest := by
        apply collapseWsAux_skip
        intro d hd
        cases rest with
        | nil => simp at hd
        | cons e es =>
          rw [List.head?_cons, Option.some_inj] at hd
          have hR := (List.chain'_cons'.mp hchain).1 e rfl
          by_contra hcontra
          subst hd
          exact hR ⟨by simpa using hwc, by simpa using hcontra⟩
      simp only [collapseWsAux, if_pos hwc, Bool.false_eq_true, if_false]
      rw [hskip, ih hchain2 hws2, hc]
    · simp only [collapseWsAux, if_neg hwc]
      rw [ih hchain2 hws2]

/-- Stripping is the identity on strings with non-whitespace ends. -/
theorem stripText_id (s : List Char)
    (hhead : ∀ c, s.head? = some c → isWs c = false)
    (hlast : ∀ c, s.getLast? = some c → isWs c = false) : stripText s = s := by
  have hdw : s.dropWhile isWs = s := by
    cases s with
    | nil => rfl
    | cons c rest =>
      rw [List.dropWhile_cons, if_neg]
      rw [hhead c rfl]
      simp
  unfold stripText stripRight
  rw [hdw]
  have hdw2 : s.reverse.dropWhile isWs = s.reverse := by
    cases hrev : s.reverse with
    | nil => rfl
    | cons c rest =>
      rw [List.dropWhile_cons, if_neg]
      have hlc : s.getLast? = some c := by
        rw [← List.head?_reverse, hrev, List.head?_cons]
      rw [hlast c hlc]
      simp
  rw [hdw2, List.reverse_reverse]

/-- Sanitizing is the identity on a normalized string free of stars and
hostile characters. -/
theorem sanitize_id_of_normal (u : List Char)
    (hws : ∀ c ∈ u, isWs c = true → c = ' ') (hchain : noTwoWs u)
    (hhead : ∀ c, u.head? = some c → isWs c = false)
    (hlast : ∀ c, u.getLast? = some c → isWs c = false)
    (hstar : '*' ∉ u) (hhost : ∀ c ∈ u, isHostile c = false) :
    sanitize_tts_text u = u := by
  have hnl : '\n' ∉ u := fun hmem => absurd (hws '\n' hmem (by decide)) (by decide)
  unfold sanitize_tts_text
  rw [show stripStars u = u from stripStarsFuel_id u.length u hstar]
  rw [removeHostile_id u hhost]
  rw [show collapseNl u = u from collapseNlFuel_id u.length u hnl]
  rw [show collapseWs u = u from collapseWsAux_id u hchain hws]
  exact stripText_id u hhead hlast

/-- C3 amended: the sanitizer is idempotent on every text containing no `'*'`
character. -/
theorem C3_sanitize_idempotent (t : List Char) (hstar : '*' ∉ t) :
    sanitize_tts_text (sanitize_tts_text t) = sanitize_tts_text t := by
  have hstaru : '*' ∉ sanitize_tts_text t := by
    intro hmem
    have h1 := mem_sanitize_strong hmem (by decide)
    have h2 := List.mem_filter.mp h1
    exact hstar (mem_stripStarsFuel _ _ h2.1)
  have hhostu : ∀ c ∈ sanitize_tts_text t, isHostile c = false := by
    intro c hc
    by_cases hsp : c = ' '
    · subst hsp; decide
    · have h1 := mem_sanitize_strong hc hsp
      have h2 := List.mem_filter.mp h1
      simpa using h2.2
  exact sanitize_id_of_normal (sanitize_tts_text t) (sanitize_ws_space t)
    (sanitize_noTwoWs t) (sanitize_head_not_ws t) (sanitize_getLast_not_ws t)
    hstaru hhostu

/-- Witness for C3: the star-free text `"hi"` sanitizes idempotently. -/
theorem C3_sanitize_idempotent_witness :
    sanitize_tts_text (sanitize_tts_text ['h', 'i']) = sanitize_tts_text ['h', 'i'] :=
  C3_sanitize_idempotent ['h', 'i'] (by decide)

end TtsWorker

